import Mathlib

set_option maxHeartbeats 1000000

/-!
Verification development for the browser-iteration harness
`scripts/iterate-client.js` of the meltdown-game repository.

Each JavaScript function that the verified properties depend on is
translated into an executable Lean definition below, keeping the source
structure and names.  Machine-level concerns (Playwright process
boundaries, the file system) are modelled as explicit data: every
asynchronous page round-trip that emits an input event is recorded as a
trace event, every file written is recorded as an artifact value, and
page-provided data (canvas pixel data, bounding boxes, element
screenshots) are inputs of the model.
-/

/- ===================================================================
   Console error tracking (ConsoleErrorTracker, lines 278-300)
   =================================================================== -/

/-- An error record as built by the page listeners in `main`:
`page.on('console', ...)` ingests records with `type = "console.error"`,
`page.on('pageerror', ...)` ingests records with `type = "pageerror"`;
`text` carries the message text. -/
structure ErrRecord where
  type : String
  text : String
deriving DecidableEq

/-- Lowercase hex digit, used by JSON string escaping of control
characters. -/
def hexDigit (n : Nat) : Char :=
  if n < 10 then Char.ofNat (48 + n) else Char.ofNat (87 + n)

/-- Escaping of one character inside a JSON string literal, as
`JSON.stringify` performs it (quote, backslash, the named control
escapes, and a u-escape for the remaining control characters). -/
def escapeJsonChar (c : Char) : String :=
  if c.toNat = 34 then "\\\""
  else if c.toNat = 92 then "\\\\"
  else if c.toNat = 10 then "\\n"
  else if c.toNat = 13 then "\\r"
  else if c.toNat = 9 then "\\t"
  else if c.toNat = 8 then "\\b"
  else if c.toNat = 12 then "\\f"
  else if c.toNat < 32 then
    "\\u00" ++ String.mk [hexDigit (c.toNat / 16), hexDigit (c.toNat % 16)]
  else String.mk [c]

/-- JSON escaping of a whole string. -/
def jsonEscape (s : String) : String :=
  String.join (s.data.map escapeJsonChar)

/-- `JSON.stringify(err)` for an error record: the listeners build the
object literally as type first, text second, so the serialized form is
determined by the two fields. -/
def jsonStringifyErr (e : ErrRecord) : String :=
  "\x7b\"type\":\"" ++ jsonEscape e.type ++ "\",\"text\":\"" ++ jsonEscape e.text ++ "\"\x7d"

/-- State of a `ConsoleErrorTracker`: the `_seen` key set (a JS `Set`,
modelled as its insertion-ordered key list) and the `_errors` batch. -/
structure ConsoleErrorTracker where
  seen : List String
  errors : List ErrRecord
deriving DecidableEq

/-- `new ConsoleErrorTracker()`. -/
def ConsoleErrorTracker.init : ConsoleErrorTracker := ⟨[], []⟩

/-- `ingest(err)`: compute `key = JSON.stringify(err)`; drop the record
if the key was seen, otherwise remember the key and append the record to
the current batch. -/
def ConsoleErrorTracker.ingest (s : ConsoleErrorTracker) (err : ErrRecord) :
    ConsoleErrorTracker :=
  let key := jsonStringifyErr err
  if key ∈ s.seen then s
  else ⟨s.seen ++ [key], s.errors ++ [err]⟩

/-- `drain()`: return the current batch and clear it; the seen set is
untouched. -/
def ConsoleErrorTracker.drain (s : ConsoleErrorTracker) :
    List ErrRecord × ConsoleErrorTracker :=
  (s.errors, ⟨s.seen, []⟩)

/-- The `count` getter. -/
def ConsoleErrorTracker.count (s : ConsoleErrorTracker) : Nat :=
  s.errors.length

/-- `n`-fold repetition of `ingest` with the same record. -/
def ingestRepeat (s : ConsoleErrorTracker) (e : ErrRecord) : Nat → ConsoleErrorTracker
  | 0 => s
  | n + 1 => (ingestRepeat s e n).ingest e

/-- One external operation on a tracker: the listeners call `ingest`,
the controller calls `drain`. -/
inductive TrackerOp where
  | ingest (e : ErrRecord)
  | drain
deriving DecidableEq

/-- Apply one tracker operation to the state. -/
def applyTrackerOp (s : ConsoleErrorTracker) : TrackerOp → ConsoleErrorTracker
  | TrackerOp.ingest e => s.ingest e
  | TrackerOp.drain => (s.drain).2

/-- Apply a sequence of tracker operations. -/
def applyTrackerOps (s : ConsoleErrorTracker) (ops : List TrackerOp) :
    ConsoleErrorTracker :=
  ops.foldl applyTrackerOp s

/-- The batches returned by the `drain` calls of an operation sequence,
in order. -/
def collectDrains (s : ConsoleErrorTracker) : List TrackerOp → List (List ErrRecord)
  | [] => []
  | TrackerOp.ingest e :: ops => collectDrains (s.ingest e) ops
  | TrackerOp.drain :: ops => (s.drain).1 :: collectDrains ((s.drain).2) ops

theorem drain_fst (s : ConsoleErrorTracker) : (s.drain).1 = s.errors := rfl

theorem drain_snd_seen (s : ConsoleErrorTracker) : ((s.drain).2).seen = s.seen := rfl

theorem drain_snd_errors (s : ConsoleErrorTracker) : ((s.drain).2).errors = [] := rfl

theorem ingest_seen_of_mem {s : ConsoleErrorTracker} {e : ErrRecord}
    (h : jsonStringifyErr e ∈ s.seen) : s.ingest e = s := by
  simp [ConsoleErrorTracker.ingest, h]

theorem ingest_seen_of_not_mem {s : ConsoleErrorTracker} {e : ErrRecord}
    (h : jsonStringifyErr e ∉ s.seen) :
    s.ingest e = ⟨s.seen ++ [jsonStringifyErr e], s.errors ++ [e]⟩ := by
  simp [ConsoleErrorTracker.ingest, h]

theorem ingest_twice (s : ConsoleErrorTracker) (e : ErrRecord) :
    (s.ingest e).ingest e = s.ingest e := by
  by_cases h : jsonStringifyErr e ∈ s.seen
  · rw [ingest_seen_of_mem h, ingest_seen_of_mem h]
  · rw [ingest_seen_of_not_mem h]
    apply ingest_seen_of_mem
    simp

theorem ingestRepeat_succ_eq (s : ConsoleErrorTracker) (e : ErrRecord) (n : Nat) :
    ingestRepeat s e (n + 1) = s.ingest e := by
  induction n with
  | zero => rfl
  | succ n ih =>
    show (ingestRepeat s e (n + 1)).ingest e = s.ingest e
    rw [ih, ingest_twice]

/-- C3: ingestion into the ConsoleErrorTracker is idempotent: ingesting a
record twice in sequence leaves the tracker in the same state (hence
yields the same subsequently drained batch) as ingesting it once;
repeated ingestion of records with identical type and text collapses to a
single ingestion; and draining after any number of repeated ingestions of
the same record, starting from a fresh tracker, returns exactly one copy
of that record. -/
theorem tracker_ingest_idempotent :
    (∀ (s : ConsoleErrorTracker) (e : ErrRecord),
        (s.ingest e).ingest e = s.ingest e)
    ∧ (∀ (s : ConsoleErrorTracker) (e : ErrRecord) (n : Nat),
        ingestRepeat s e (n + 1) = s.ingest e)
    ∧ (∀ (e : ErrRecord) (n : Nat),
        ((ingestRepeat ConsoleErrorTracker.init e (n + 1)).drain).1 = [e]) := by
  refine ⟨ingest_twice, ingestRepeat_succ_eq, ?_⟩
  intro e n
  rw [ingestRepeat_succ_eq]
  rw [ingest_seen_of_not_mem (by simp [ConsoleErrorTracker.init])]
  simp [ConsoleErrorTracker.drain, ConsoleErrorTracker.init]

theorem seen_length_mono_op (s : ConsoleErrorTracker) (op : TrackerOp) :
    s.seen.length ≤ (applyTrackerOp s op).seen.length := by
  cases op with
  | ingest e =>
    by_cases h : jsonStringifyErr e ∈ s.seen
    · rw [applyTrackerOp, ingest_seen_of_mem h]
    · rw [applyTrackerOp, ingest_seen_of_not_mem h]
      simp
  | drain => simp [applyTrackerOp, ConsoleErrorTracker.drain]

theorem seen_length_mono (ops : List TrackerOp) :
    ∀ s : ConsoleErrorTracker,
      s.seen.length ≤ (applyTrackerOps s ops).seen.length := by
  induction ops with
  | nil => intro s; simp [applyTrackerOps]
  | cons op ops ih =>
    intro s
    have h1 := seen_length_mono_op s op
    have h2 := ih (applyTrackerOp s op)
    simpa [applyTrackerOps] using le_trans h1 h2

/-- Keys of the records currently pending in the batch. -/
def batchKeys (s : ConsoleErrorTracker) : List String :=
  s.errors.map jsonStringifyErr

theorem collectDrains_nodup_aux (ops : List TrackerOp) :
    ∀ s : ConsoleErrorTracker,
      (batchKeys s).Nodup →
      (∀ k ∈ batchKeys s, k ∈ s.seen) →
      (((collectDrains s ops).flatten.map jsonStringifyErr).Nodup
        ∧ ∀ k ∈ (collectDrains s ops).flatten.map jsonStringifyErr,
            k ∉ s.seen ∨ k ∈ batchKeys s) := by
  induction ops with
  | nil => intro s _ _; simp [collectDrains]
  | cons op ops ih =>
    intro s h1 h2
    cases op with
    | ingest e =>
      simp only [collectDrains]
      by_cases hk : jsonStringifyErr e ∈ s.seen
      · rw [ingest_seen_of_mem hk]
        exact ih s h1 h2
      · rw [ingest_seen_of_not_mem hk]
        have hkeys : batchKeys ⟨s.seen ++ [jsonStringifyErr e], s.errors ++ [e]⟩
            = batchKeys s ++ [jsonStringifyErr e] := by
          simp [batchKeys]
        have h1' : (batchKeys ⟨s.seen ++ [jsonStringifyErr e], s.errors ++ [e]⟩).Nodup := by
          rw [hkeys, List.nodup_append]
          refine ⟨h1, List.nodup_singleton _, ?_⟩
          intro k hk1 hk2
          simp at hk2
          subst hk2
          exact hk (h2 _ hk1)
        have h2' : ∀ k ∈ batchKeys ⟨s.seen ++ [jsonStringifyErr e], s.errors ++ [e]⟩,
            k ∈ (⟨s.seen ++ [jsonStringifyErr e], s.errors ++ [e]⟩ :
              ConsoleErrorTracker).seen := by
          intro k hk1
          rw [hkeys] at hk1
          simp only [List.mem_append, List.mem_singleton] at hk1
          rcases hk1 with hk1 | hk1
          · simp [h2 _ hk1]
          · simp [hk1]
        obtain ⟨hn, hsub⟩ := ih _ h1' h2'
        refine ⟨hn, ?_⟩
        intro k hkd
        rcases hsub k hkd with hs | hs
        · left
          intro hmem
          exact hs (by simp [hmem])
        · rw [hkeys] at hs
          simp only [List.mem_append, List.mem_singleton] at hs
          rcases hs with hs | hs
          · right; exact hs
          · left; rw [hs]; exact hk
    | drain =>
      simp only [collectDrains]
      have h1' : (batchKeys ((s.drain).2)).Nodup := by
        simp [batchKeys, drain_snd_errors]
      have h2' : ∀ k ∈ batchKeys ((s.drain).2), k ∈ ((s.drain).2).seen := by
        simp [batchKeys, drain_snd_errors]
      obtain ⟨hn, hsub⟩ := ih _ h1' h2'
      have hdisj : ∀ k ∈ (collectDrains ((s.drain).2) ops).flatten.map jsonStringifyErr,
          k ∉ s.seen := by
        intro k hk
        rcases hsub k hk with hs | hs
        · rw [drain_snd_seen] at hs
          exact hs
        · rw [batchKeys, drain_snd_errors] at hs
          simp at hs
      constructor
      · simp only [List.flatten_cons, List.map_append]
        rw [List.nodup_append]
        refine ⟨h1, hn, ?_⟩
        intro k hk1 hk2
        exact hdisj k hk2 (h2 k hk1)
      · intro k hk
        simp only [List.flatten_cons, List.map_append, List.mem_append] at hk
        rcases hk with hk | hk
        · right; rw [drain_fst] at hk; exact hk
        · left; exact hdisj k hk

theorem seen_never_redrained_aux (ops : List TrackerOp) :
    ∀ (s : ConsoleErrorTracker) (k : String),
      k ∈ s.seen → k ∉ batchKeys s →
      ∀ b ∈ collectDrains s ops, ∀ e ∈ b, jsonStringifyErr e ≠ k := by
  induction ops with
  | nil => intro s k _ _ b hb; simp [collectDrains] at hb
  | cons op ops ih =>
    intro s k hseen hbatch
    cases op with
    | ingest e =>
      simp only [collectDrains]
      by_cases hk : jsonStringifyErr e ∈ s.seen
      · rw [ingest_seen_of_mem hk]
        exact ih s k hseen hbatch
      · rw [ingest_seen_of_not_mem hk]
        apply ih
        · simp [hseen]
        · intro hmem
          simp only [batchKeys, List.map_append] at hmem
          simp only [List.mem_append] at hmem
          rcases hmem with hmem | hmem
          · exact hbatch hmem
          · simp at hmem
            rw [hmem] at hseen
            exact hk hseen
    | drain =>
      intro b hb
      simp only [collectDrains, List.mem_cons] at hb
      rcases hb with hb | hb
      · intro e he heq
        apply hbatch
        rw [hb, drain_fst] at he
        simp only [batchKeys, List.mem_map]
        exact ⟨e, he, heq⟩
      · refine ih _ k ?_ ?_ b hb
        · rw [drain_snd_seen]; exact hseen
        · simp [batchKeys, drain_snd_errors]

/-- C4: `drain` returns the current batch and clears it without touching
the seen set: draining twice with no intervening ingest yields an empty
second batch, the seen-set size never decreases under any operation
sequence, the batches drained from a fresh tracker never repeat a key
(a drained record never resurfaces), and a key that is seen and no longer
pending is never contained in any later drained batch. -/
theorem tracker_drain_exclusivity :
    (∀ s : ConsoleErrorTracker, ((((s.drain).2).drain).1 = []))
    ∧ (∀ s : ConsoleErrorTracker, ((s.drain).2).seen = s.seen)
    ∧ (∀ (s : ConsoleErrorTracker) (ops : List TrackerOp),
        s.seen.length ≤ (applyTrackerOps s ops).seen.length)
    ∧ (∀ ops : List TrackerOp,
        ((collectDrains ConsoleErrorTracker.init ops).flatten.map jsonStringifyErr).Nodup)
    ∧ (∀ (s : ConsoleErrorTracker) (ops : List TrackerOp) (k : String),
        k ∈ s.seen → k ∉ batchKeys s →
        ∀ b ∈ collectDrains s ops, ∀ e ∈ b, jsonStringifyErr e ≠ k) := by
  refine ⟨?_, ?_, ?_, ?_, ?_⟩
  · intro s; rfl
  · intro s; rfl
  · intro s ops; exact seen_length_mono ops s
  · intro ops
    exact (collectDrains_nodup_aux ops ConsoleErrorTracker.init
      (by simp [batchKeys, ConsoleErrorTracker.init])
      (by simp [batchKeys, ConsoleErrorTracker.init])).1
  · exact fun s ops => seen_never_redrained_aux ops s

/-- Witness for C4 at concrete inputs: the seen key of a drained record
is never drained again, and the fresh-tracker drain keys are duplicate
free. -/
theorem tracker_drain_exclusivity_witness :
    ∀ b ∈ collectDrains
        (⟨[jsonStringifyErr ⟨"pageerror", "boom"⟩], []⟩ : ConsoleErrorTracker)
        [TrackerOp.ingest ⟨"pageerror", "boom"⟩, TrackerOp.drain],
      ∀ e ∈ b, jsonStringifyErr e ≠ jsonStringifyErr ⟨"pageerror", "boom"⟩ :=
  tracker_drain_exclusivity.2.2.2.2
    ⟨[jsonStringifyErr ⟨"pageerror", "boom"⟩], []⟩
    [TrackerOp.ingest ⟨"pageerror", "boom"⟩, TrackerOp.drain]
    (jsonStringifyErr ⟨"pageerror", "boom"⟩)
    (by simp) (by simp [batchKeys])

/- ===================================================================
   Action choreography (KEY_MAP lines 102-117, runActions lines 306-351)
   =================================================================== -/

/-- The fixed logical-key name table `KEY_MAP`. -/
def KEY_MAP : List (String × String) :=
  [("up", "ArrowUp"), ("down", "ArrowDown"), ("left", "ArrowLeft"),
   ("right", "ArrowRight"), ("enter", "Enter"), ("space", "Space"),
   ("escape", "Escape"), ("tab", "Tab"), ("w", "KeyW"), ("a", "KeyA"),
   ("s", "KeyS"), ("d", "KeyD"), ("f", "KeyF"), ("m", "KeyM")]

/-- `KEY_MAP[button] || button`: translate through the table, fall back
to the literal name when unmapped. -/
def keyMap (button : String) : String :=
  (KEY_MAP.lookup button).getD button

/-- `new Set(step.buttons || [])`: a JS Set iterates in insertion order
with duplicates collapsed to their first occurrence. -/
def jsSetOfList (l : List String) : List String :=
  l.foldl (fun acc x => if x ∈ acc then acc else acc ++ [x]) []

/-- One choreography step as parsed from the actions JSON
(all fields optional in the JSON). -/
structure ActionStep where
  buttons : Option (List String)
  frames : Option Nat
  mouse_x : Option Rat
  mouse_y : Option Rat
  wait_ms : Option Nat
deriving DecidableEq

/-- A DOM bounding box as returned by `canvas.boundingBox()`. -/
structure BBox where
  x : Rat
  y : Rat
  width : Rat
  height : Rat
deriving DecidableEq

/-- The page-side facts `runActions` consults: the canvas bounding box
(none when there is no canvas or it has no box) and whether the page
exposes a callable `window.advanceTime`. -/
structure PageEnv where
  canvasBBox : Option BBox
  hasAdvanceTime : Bool
deriving DecidableEq

/-- One observable page interaction performed by `runActions`, in
program order. -/
inductive TraceEvent where
  | mouseMove (x y : Rat)
  | mouseDown (button : String)
  | mouseUp (button : String)
  | keyDown (key : String)
  | keyUp (key : String)
  | frameAdvance (calledAdvanceTime : Bool)
  | waitMs (ms : Nat)
deriving DecidableEq

/-- The press-phase events for one button (first loop of the step body):
mouse buttons move to the resolved coordinate and press down, skipping
entirely when the bounding box is missing; other names key-down their
translated key. -/
def pressButton (env : PageEnv) (step : ActionStep) (button : String) :
    List TraceEvent :=
  if button = "left_mouse_button" ∨ button = "right_mouse_button" then
    match env.canvasBBox with
    | none => []
    | some bbox =>
      let x := match step.mouse_x with
        | some v => v
        | none => bbox.width / 2
      let y := match step.mouse_y with
        | some v => v
        | none => bbox.height / 2
      [TraceEvent.mouseMove (bbox.x + x) (bbox.y + y),
       TraceEvent.mouseDown (if button = "left_mouse_button" then "left" else "right")]
  else
    [TraceEvent.keyDown (keyMap button)]

/-- The release-phase events for one button (third loop of the step
body): unconditional mouse-up for mouse buttons, key-up of the
translated key otherwise. -/
def releaseButton (button : String) : List TraceEvent :=
  if button = "left_mouse_button" ∨ button = "right_mouse_button" then
    [TraceEvent.mouseUp (if button = "left_mouse_button" then "left" else "right")]
  else
    [TraceEvent.keyUp (keyMap button)]

/-- `const frames = step.frames || 1`: a missing or zero frame count
falls back to 1. -/
def effectiveFrames (f : Option Nat) : Nat :=
  match f with
  | some n => if n = 0 then 1 else n
  | none => 1

/-- `if (step.wait_ms) await sleep(step.wait_ms)`: a missing or zero
wait is skipped. -/
def waitTrailer (step : ActionStep) : List TraceEvent :=
  match step.wait_ms with
  | some w => if w = 0 then [] else [TraceEvent.waitMs w]
  | none => []

/-- Event trace of one iteration of the `for (const step of steps)` loop
of `runActions`: press every button of the set, run `frames` evaluate
round-trips each of which awaits `advanceTime(1000/60)` exactly when the
page exposes it, release every button of the set, then the optional
wait. -/
def runStepTrace (env : PageEnv) (step : ActionStep) : List TraceEvent :=
  let buttons := jsSetOfList (step.buttons.getD [])
  (buttons.map (pressButton env step)).flatten
    ++ List.replicate (effectiveFrames step.frames)
        (TraceEvent.frameAdvance env.hasAdvanceTime)
    ++ (buttons.map releaseButton).flatten
    ++ waitTrailer step

/-- Event trace of `runActions(page, canvas, steps)`. -/
def runActionsTrace (env : PageEnv) (steps : List ActionStep) : List TraceEvent :=
  (steps.map (runStepTrace env)).flatten

/-- Classification: events emitted by the press phase. -/
def isPressEvent : TraceEvent → Bool
  | TraceEvent.mouseMove _ _ => true
  | TraceEvent.mouseDown _ => true
  | TraceEvent.keyDown _ => true
  | _ => false

/-- Classification: events emitted by the release phase. -/
def isReleaseEvent : TraceEvent → Bool
  | TraceEvent.mouseUp _ => true
  | TraceEvent.keyUp _ => true
  | _ => false

/-- Classification: frame-advance round-trips. -/
def isFrameAdvance : TraceEvent → Bool
  | TraceEvent.frameAdvance _ => true
  | _ => false

/-- Classification: the optional trailing wait. -/
def isWaitEvent : TraceEvent → Bool
  | TraceEvent.waitMs _ => true
  | _ => false

theorem pressButton_all_press (env : PageEnv) (step : ActionStep) (b : String) :
    ∀ e ∈ pressButton env step b, isPressEvent e = true := by
  intro e he
  rw [pressButton] at he
  split at he
  · cases hb : env.canvasBBox with
    | none => rw [hb] at he; simp at he
    | some bbox =>
      rw [hb] at he
      simp only [List.mem_cons] at he
      rcases he with he | he | he
      · rw [he]; rfl
      · rw [he]; rfl
      · simp at he
  · simp only [List.mem_cons] at he
    rcases he with he | he
    · rw [he]; rfl
    · simp at he

theorem releaseButton_all_release (b : String) :
    ∀ e ∈ releaseButton b, isReleaseEvent e = true := by
  intro e he
  rw [releaseButton] at he
  split at he <;> simp only [List.mem_cons] at he <;>
    rcases he with he | he
  · rw [he]; rfl
  · simp at he
  · rw [he]; rfl
  · simp at he

theorem waitTrailer_all_wait (step : ActionStep) :
    ∀ e ∈ waitTrailer step, isWaitEvent e = true := by
  intro e he
  rw [waitTrailer] at he
  split at he
  · split at he
    · simp at he
    · simp only [List.mem_cons] at he
      rcases he with he | he
      · rw [he]; rfl
      · simp at he
  · simp at he

theorem press_not_advance {e : TraceEvent} (h : isPressEvent e = true) :
    isFrameAdvance e = false := by
  cases e <;> simp_all [isPressEvent, isFrameAdvance]

theorem release_not_advance {e : TraceEvent} (h : isReleaseEvent e = true) :
    isFrameAdvance e = false := by
  cases e <;> simp_all [isReleaseEvent, isFrameAdvance]

theorem wait_not_advance {e : TraceEvent} (h : isWaitEvent e = true) :
    isFrameAdvance e = false := by
  cases e <;> simp_all [isWaitEvent, isFrameAdvance]

theorem countP_replicate_true (p : TraceEvent → Bool) (a : TraceEvent) (n : Nat)
    (h : p a = true) : (List.replicate n a).countP p = n := by
  induction n with
  | zero => rfl
  | succ n ih =>
    rw [List.replicate_succ, List.countP_cons, ih, h]
    simp

theorem pressFlatten_all_press (env : PageEnv) (step : ActionStep) (bs : List String) :
    ∀ e ∈ (bs.map (pressButton env step)).flatten, isPressEvent e = true := by
  intro e he
  rw [List.mem_flatten] at he
  obtain ⟨l, hl, hel⟩ := he
  rw [List.mem_map] at hl
  obtain ⟨b, _, hb⟩ := hl
  rw [← hb] at hel
  exact pressButton_all_press env step b e hel

theorem releaseFlatten_all_release (bs : List String) :
    ∀ e ∈ (bs.map releaseButton).flatten, isReleaseEvent e = true := by
  intro e he
  rw [List.mem_flatten] at he
  obtain ⟨l, hl, hel⟩ := he
  rw [List.mem_map] at hl
  obtain ⟨b, _, hb⟩ := hl
  rw [← hb] at hel
  exact releaseButton_all_release b e hel

theorem effectiveFrames_of_valid {f : Option Nat}
    (hf : f = none ∨ ∃ n : Nat, f = some (n + 1)) :
    effectiveFrames f = f.getD 1 := by
  rcases hf with h | ⟨n, h⟩ <;> simp [effectiveFrames, h]

/-- C5: for every choreography step, all press events (mouse move and
down for mouse buttons, key-down for translated keys) are emitted before
any frame advance; then exactly `frames` frame-advance round-trips occur
(exactly one when `frames` is omitted), each one awaiting
`advanceTime(1000/60)` exactly when the page exposes a callable
`advanceTime`; then only release events (and the optional trailing wait)
are emitted: presses strictly precede all advances, and all advances
strictly precede releases. -/
theorem choreography_order (env : PageEnv) (step : ActionStep)
    (hf : step.frames = none ∨ ∃ n : Nat, step.frames = some (n + 1)) :
    ∃ P R,
      runStepTrace env step
          = P ++ List.replicate (step.frames.getD 1)
              (TraceEvent.frameAdvance env.hasAdvanceTime) ++ R
        ∧ (∀ e ∈ P, isPressEvent e = true)
        ∧ (∀ e ∈ R, isReleaseEvent e = true ∨ isWaitEvent e = true)
        ∧ (runStepTrace env step).countP isFrameAdvance = step.frames.getD 1 := by
  have hEff := effectiveFrames_of_valid hf
  refine ⟨((jsSetOfList (step.buttons.getD [])).map (pressButton env step)).flatten,
    ((jsSetOfList (step.buttons.getD [])).map releaseButton).flatten ++ waitTrailer step,
    ?_, ?_, ?_, ?_⟩
  · rw [runStepTrace, hEff]
    simp [List.append_assoc]
  · exact pressFlatten_all_press env step _
  · intro e he
    rw [List.mem_append] at he
    rcases he with he | he
    · exact Or.inl (releaseFlatten_all_release _ e he)
    · exact Or.inr (waitTrailer_all_wait step e he)
  · rw [runStepTrace, hEff]
    rw [List.countP_append, List.countP_append, List.countP_append]
    have hp : ((jsSetOfList (step.buttons.getD [])).map
        (pressButton env step)).flatten.countP isFrameAdvance = 0 := by
      rw [List.countP_eq_zero]
      intro e he
      simp [press_not_advance (pressFlatten_all_press env step _ e he)]
    have hr : ((jsSetOfList (step.buttons.getD [])).map
        releaseButton).flatten.countP isFrameAdvance = 0 := by
      rw [List.countP_eq_zero]
      intro e he
      simp [release_not_advance (releaseFlatten_all_release _ e he)]
    have hw : (waitTrailer step).countP isFrameAdvance = 0 := by
      rw [List.countP_eq_zero]
      intro e he
      simp [wait_not_advance (waitTrailer_all_wait step e he)]
    rw [hp, hr, hw, countP_replicate_true _ _ _ rfl]
    omega

/-- A concrete environment for the choreography witnesses: a canvas with
a bounding box, and a page exposing `advanceTime`. -/
def envDemo : PageEnv := ⟨some ⟨0, 0, 640, 360⟩, true⟩

/-- A concrete step: two buttons, three frames. -/
def stepDemo : ActionStep := ⟨some ["a", "left_mouse_button"], some 3, none, none, none⟩

/-- Witness for C5 at a concrete step with buttons a and
left_mouse_button and three frames. -/
theorem choreography_order_witness :
    ∃ P R,
      runStepTrace envDemo stepDemo
          = P ++ List.replicate ((stepDemo.frames).getD 1)
              (TraceEvent.frameAdvance envDemo.hasAdvanceTime) ++ R
        ∧ (∀ e ∈ P, isPressEvent e = true)
        ∧ (∀ e ∈ R, isReleaseEvent e = true ∨ isWaitEvent e = true)
        ∧ (runStepTrace envDemo stepDemo).countP isFrameAdvance
            = (stepDemo.frames).getD 1 :=
  choreography_order envDemo stepDemo (Or.inr ⟨2, rfl⟩)

theorem press_not_release {e : TraceEvent} (h : isPressEvent e = true) :
    isReleaseEvent e = false := by
  cases e <;> simp_all [isPressEvent, isReleaseEvent]

theorem wait_not_release {e : TraceEvent} (h : isWaitEvent e = true) :
    isReleaseEvent e = false := by
  cases e <;> simp_all [isWaitEvent, isReleaseEvent]

/-- An environment whose canvas has no bounding box. -/
def envNoBox : PageEnv := ⟨none, true⟩

/-- A step holding only the left mouse button for one frame. -/
def stepMouseOnly : ActionStep := ⟨some ["left_mouse_button"], some 1, none, none, none⟩

/-- C8 counterexample: with no canvas bounding box, the press of the
left mouse button is skipped (no mouse-move, no mouse-down appears in
the trace), yet the release phase still emits the mouse-up — the set of
released buttons is not the set of buttons actually pressed. -/
theorem release_without_press_cex :
    runStepTrace envNoBox stepMouseOnly
        = [TraceEvent.frameAdvance true, TraceEvent.mouseUp "left"]
      ∧ TraceEvent.mouseDown "left" ∉ runStepTrace envNoBox stepMouseOnly := by
  constructor
  · rfl
  · decide

/-- C8 amended: the release phase of a step releases every button of the
step's deduplicated button set in translated form, whether or not that
button's press actually happened — in particular a mouse button whose
press was skipped because the canvas had no bounding box is still
released, while keyboard presses and releases always match. -/
theorem release_full_set (env : PageEnv) (step : ActionStep) :
    (runStepTrace env step).filter isReleaseEvent
        = ((jsSetOfList (step.buttons.getD [])).map releaseButton).flatten
      ∧ (∀ b ∈ jsSetOfList (step.buttons.getD []),
          ∀ e ∈ releaseButton b, e ∈ runStepTrace env step)
      ∧ (env.canvasBBox = none →
          ∀ s, TraceEvent.mouseDown s ∉ runStepTrace env step) := by
  refine ⟨?_, ?_, ?_⟩
  · rw [runStepTrace]
    rw [List.filter_append, List.filter_append, List.filter_append]
    have hp : ((jsSetOfList (step.buttons.getD [])).map
        (pressButton env step)).flatten.filter isReleaseEvent = [] := by
      rw [List.filter_eq_nil_iff]
      intro e he
      simp [press_not_release (pressFlatten_all_press env step _ e he)]
    have hadv : (List.replicate (effectiveFrames step.frames)
        (TraceEvent.frameAdvance env.hasAdvanceTime)).filter isReleaseEvent = [] := by
      rw [List.filter_eq_nil_iff]
      intro e he
      rw [List.eq_of_mem_replicate he]
      simp [isReleaseEvent]
    have hr : ((jsSetOfList (step.buttons.getD [])).map
        releaseButton).flatten.filter isReleaseEvent
        = ((jsSetOfList (step.buttons.getD [])).map releaseButton).flatten := by
      rw [List.filter_eq_self]
      exact releaseFlatten_all_release _
    have hw : (waitTrailer step).filter isReleaseEvent = [] := by
      rw [List.filter_eq_nil_iff]
      intro e he
      simp [wait_not_release (waitTrailer_all_wait step e he)]
    rw [hp, hadv, hr, hw]
    simp
  · intro b hb e he
    have hmem : e ∈ ((jsSetOfList (step.buttons.getD [])).map releaseButton).flatten :=
      List.mem_flatten.mpr ⟨releaseButton b, List.mem_map.mpr ⟨b, hb, rfl⟩, he⟩
    rw [runStepTrace]
    simp only [List.mem_append]
    tauto
  · intro hnone s hmem
    simp only [runStepTrace, List.mem_append] at hmem
    rcases hmem with ((hmem | hmem) | hmem) | hmem
    · have := pressFlatten_all_press env step _ _ hmem
      rw [List.mem_flatten] at hmem
      obtain ⟨l, hl, hel⟩ := hmem
      rw [List.mem_map] at hl
      obtain ⟨b, _, hb⟩ := hl
      rw [← hb, pressButton] at hel
      split at hel
      · rw [hnone] at hel
        simp at hel
      · simp only [List.mem_cons] at hel
        rcases hel with hel | hel
        · exact absurd hel.symm (by simp)
        · simp at hel
    · exact absurd (List.eq_of_mem_replicate hmem) (by simp)
    · have := releaseFlatten_all_release _ _ hmem
      simp [isReleaseEvent] at this
    · have := waitTrailer_all_wait step _ hmem
      simp [isWaitEvent] at this

/-- Witness for C8 amended at a concrete step: the key-a release and the
left mouse-up both appear in the demo trace, and in the no-bounding-box
environment no mouse-down appears. -/
theorem release_full_set_witness :
    (∀ e ∈ releaseButton "left_mouse_button",
        e ∈ runStepTrace envDemo stepDemo)
      ∧ (∀ s, TraceEvent.mouseDown s ∉ runStepTrace envNoBox stepMouseOnly) :=
  ⟨(release_full_set envDemo stepDemo).2.1 "left_mouse_button" (by decide),
   (release_full_set envNoBox stepMouseOnly).2.2 rfl⟩

/- ===================================================================
   Canvas detection and screenshot capture (lines 185-272)
   =================================================================== -/

/-- JS truthy-or on numbers: `a || b` evaluates to `b` when `a` is 0.
Used for `canvas.width || canvas.clientWidth || 0`. -/
def jsOr (a b : Nat) : Nat :=
  if a = 0 then b else a

/-- The page-side facts about one canvas element that the capture
pipeline reads: its dimensions, its `toDataURL` behaviour (none means
the call throws, e.g. on a security-tainted canvas), whether the probe
canvas yields a 2d context, whether drawing or reading the probe throws,
and the alpha values the transparency probe samples. -/
structure CanvasModel where
  width : Nat
  height : Nat
  clientWidth : Nat
  clientHeight : Nat
  hasToDataURL : Bool
  toDataURL : Option String
  ctxOk : Bool
  probeThrows : Bool
  alphas : List Nat
deriving DecidableEq

/-- `data.slice(idx + 1)` for `idx = data.indexOf(',')`, empty when no
comma occurs (`idx === -1`). -/
def sliceAfterComma (data : String) : String :=
  match data.splitOn "," with
  | [] => ""
  | [_] => ""
  | _ :: rest => String.intercalate "," rest

/-- `captureCanvasPngBase64(canvas)`: empty string when `toDataURL` is
missing, throws, or returns a string without a comma; otherwise the
part after the first comma of the data URL. -/
def captureCanvasPngBase64 (c : CanvasModel) : String :=
  if !c.hasToDataURL then ""
  else
    match c.toDataURL with
    | none => ""
    | some data => sliceAfterComma data

/-- Value of one base64 character in the standard alphabet. -/
def base64Index (c : Char) : Option Nat :=
  if 65 ≤ c.toNat ∧ c.toNat ≤ 90 then some (c.toNat - 65)
  else if 97 ≤ c.toNat ∧ c.toNat ≤ 122 then some (c.toNat - 97 + 26)
  else if 48 ≤ c.toNat ∧ c.toNat ≤ 57 then some (c.toNat - 48 + 52)
  else if c.toNat = 43 then some 62
  else if c.toNat = 47 then some 63
  else none

/-- Decode a run of base64 sextets into bytes. -/
def decodeB64Chunks : List Nat → List Nat
  | a :: b :: c :: d :: rest =>
      (a * 4 + b / 16) :: ((b % 16) * 16 + c / 4) :: ((c % 4) * 64 + d)
        :: decodeB64Chunks rest
  | [a, b, c] => [a * 4 + b / 16, (b % 16) * 16 + c / 4]
  | [a, b] => [a * 4 + b / 16]
  | _ => []

/-- `Buffer.from(base64, 'base64')`: bytes of the decoded base64
payload. -/
def bufferFromBase64 (s : String) : List Nat :=
  decodeB64Chunks (s.data.filterMap base64Index)

/-- `isCanvasTransparent(canvas)`: true for a missing canvas, a canvas
with a zero effective dimension, or a probe without 2d context; false
when the probe throws (fail open: cannot probe, assume not transparent);
otherwise true iff every sampled alpha value is zero. -/
def isCanvasTransparent (oc : Option CanvasModel) : Bool :=
  match oc with
  | none => true
  | some c =>
    let w := jsOr c.width c.clientWidth
    let h := jsOr c.height c.clientHeight
    if w = 0 || h = 0 then true
    else if !c.ctxOk then true
    else if c.probeThrows then false
    else c.alphas.all (fun a => a = 0)

/-- The capture environment: the located canvas (if any), the result of
`canvas.screenshot()` (none when it throws), the canvas bounding box,
and the page screenshots Playwright would produce with and without a
clip. -/
structure CaptureEnv where
  canvas : Option CanvasModel
  elementShot : Option (List Nat)
  bbox : Option BBox
  pageShotClipped : List Nat
  pageShotFull : List Nat
deriving DecidableEq

/-- Strategy 1 of `captureScreenshot`: decode the canvas data URL, then
discard the buffer when the transparency probe reports a fully
transparent canvas. -/
def strategy1Buffer (env : CaptureEnv) : Option (List Nat) :=
  match env.canvas with
  | none => none
  | some c =>
    let base64 := captureCanvasPngBase64 c
    if base64 = "" then none
    else
      let buf := bufferFromBase64 base64
      if isCanvasTransparent (some c) then none else some buf

/-- Strategy 2: `if (!buffer && canvas)` try the Playwright element
screenshot, swallowing a throw (a throw yields null, modelled by
`elementShot = none`). -/
def strategy2Buffer (env : CaptureEnv) (buffer : Option (List Nat)) :
    Option (List Nat) :=
  if buffer = none ∧ env.canvas ≠ none then env.elementShot else buffer

/-- Strategy 3: page screenshot, clipped to the canvas bounding box when
the canvas exists and has one. -/
def strategy3Buffer (env : CaptureEnv) : List Nat :=
  match env.canvas, env.bbox with
  | some _, some _ => env.pageShotClipped
  | _, _ => env.pageShotFull

/-- `captureScreenshot(page, canvas, outPath)`: the strategy cascade;
the returned bytes are what `fs.writeFileSync` writes to the artifact
path. -/
def captureScreenshot (env : CaptureEnv) : List Nat :=
  match strategy2Buffer env (strategy1Buffer env) with
  | some b => b
  | none => strategy3Buffer env

/-- The failure condition of the direct pixel export: a canvas is
present and its data-URL export is empty (missing, threw, or malformed)
or the transparency probe reports a fully transparent image. -/
def strat1Fails (env : CaptureEnv) : Bool :=
  match env.canvas with
  | none => false
  | some c =>
    captureCanvasPngBase64 c = "" || isCanvasTransparent (some c)

/-- C6: whenever the direct canvas pixel export fails (throws, returns
empty, or probes fully transparent), the capturer still produces a
buffer from a later strategy — the element screenshot when it succeeds,
otherwise the page screenshot — and the final write always receives
these bytes (no exception escapes, every fallible step is caught in the
source); and when the transparency probe itself throws at the point of
drawing, the canvas is treated as not transparent, so a successfully
exported buffer is kept. -/
theorem screenshot_fallback_cascade (env : CaptureEnv) :
    (strat1Fails env = true →
      strategy1Buffer env = none
        ∧ captureScreenshot env
            = (match env.elementShot with
                | some b => b
                | none => strategy3Buffer env))
    ∧ (∀ c : CanvasModel, env.canvas = some c → c.probeThrows = true →
        jsOr c.width c.clientWidth ≠ 0 → jsOr c.height c.clientHeight ≠ 0 →
        c.ctxOk = true →
        isCanvasTransparent (some c) = false
          ∧ (captureCanvasPngBase64 c ≠ "" →
              captureScreenshot env
                = bufferFromBase64 (captureCanvasPngBase64 c))) := by
  constructor
  · intro hfail
    have hcanvas : env.canvas ≠ none := by
      rw [strat1Fails] at hfail
      cases hc : env.canvas with
      | none => rw [hc] at hfail; simp at hfail
      | some c => simp [hc]
    have h1 : strategy1Buffer env = none := by
      cases hc : env.canvas with
      | none => exact absurd hc hcanvas
      | some c =>
        rw [strategy1Buffer, hc]
        rw [strat1Fails, hc] at hfail
        simp only [Bool.or_eq_true, decide_eq_true_eq] at hfail
        rcases hfail with hfail | hfail
        · simp [hfail]
        · by_cases hb : captureCanvasPngBase64 c = ""
          · simp [hb]
          · simp [hb, hfail]
    refine ⟨h1, ?_⟩
    rw [captureScreenshot, h1]
    have h2 : strategy2Buffer env none = env.elementShot := by
      rw [strategy2Buffer, if_pos ⟨rfl, hcanvas⟩]
    rw [h2]
  · intro c hc hthrow hw hh hctx
    have htrans : isCanvasTransparent (some c) = false := by
      simp only [isCanvasTransparent]
      rw [if_neg (by simp [hw, hh]), if_neg (by simp [hctx]), if_pos hthrow]
    refine ⟨htrans, ?_⟩
    intro hb
    have h1 : strategy1Buffer env
        = some (bufferFromBase64 (captureCanvasPngBase64 c)) := by
      rw [strategy1Buffer, hc]
      simp [hb, htrans]
    rw [captureScreenshot, h1]
    have h2 : strategy2Buffer env (some (bufferFromBase64 (captureCanvasPngBase64 c)))
        = some (bufferFromBase64 (captureCanvasPngBase64 c)) := by
      rw [strategy2Buffer, if_neg (by simp)]
    rw [h2]

/-- Capture environment for the witness: a canvas whose `toDataURL`
throws (tainted), and an element screenshot that succeeds. -/
def envTainted : CaptureEnv :=
  ⟨some ⟨640, 360, 0, 0, true, none, true, false, [0, 0]⟩,
   some [137, 80, 78, 71], some ⟨0, 0, 640, 360⟩, [1], [2]⟩

/-- Capture environment for the fail-open witness: the probe throws but
the data URL export succeeds. -/
def envProbeThrows : CaptureEnv :=
  ⟨some ⟨640, 360, 0, 0, true, some "data:image/png;base64,QUJD", true, true, []⟩,
   none, some ⟨0, 0, 640, 360⟩, [1], [2]⟩

/-- Witness for C6: with a throwing `toDataURL` the element screenshot
is used, and with a throwing probe the directly exported buffer is
kept. -/
theorem screenshot_fallback_cascade_witness :
    (strategy1Buffer envTainted = none
      ∧ captureScreenshot envTainted
          = (match envTainted.elementShot with
              | some b => b
              | none => strategy3Buffer envTainted))
    ∧ (isCanvasTransparent envProbeThrows.canvas = false
        ∧ (captureCanvasPngBase64 ⟨640, 360, 0, 0, true,
              some "data:image/png;base64,QUJD", true, true, []⟩ ≠ "" →
            captureScreenshot envProbeThrows
              = bufferFromBase64 (captureCanvasPngBase64
                  ⟨640, 360, 0, 0, true, some "data:image/png;base64,QUJD",
                   true, true, []⟩))) :=
  ⟨(screenshot_fallback_cascade envTainted).1 (by decide),
   ⟨((screenshot_fallback_cascade envProbeThrows).2
      ⟨640, 360, 0, 0, true, some "data:image/png;base64,QUJD", true, true, []⟩
      rfl rfl (by decide) (by decide) rfl).1,
    ((screenshot_fallback_cascade envProbeThrows).2
      ⟨640, 360, 0, 0, true, some "data:image/png;base64,QUJD", true, true, []⟩
      rfl rfl (by decide) (by decide) rfl).2⟩⟩

/-- Area of a canvas as computed inside `getCanvasHandle`:
`(canvas.width || canvas.clientWidth || 0) * (canvas.height || canvas.clientHeight || 0)`. -/
def canvasArea (c : CanvasModel) : Nat :=
  jsOr c.width c.clientWidth * jsOr c.height c.clientHeight

/-- The scanning loop of `getCanvasHandle`: `best` starts null,
`bestArea` starts 0, and a canvas replaces the best only when its area
is strictly greater.  The result is the document-order index of the
chosen canvas. -/
def pickBestCanvas : List CanvasModel → Option Nat → Nat → Nat → Option Nat
  | [], best, _, _ => best
  | c :: rest, best, bestArea, idx =>
    if canvasArea c > bestArea then
      pickBestCanvas rest (some idx) (canvasArea c) (idx + 1)
    else
      pickBestCanvas rest best bestArea (idx + 1)

/-- `getCanvasHandle(page)`: index of the canvas the locator returns,
none when every canvas has zero area or none exists. -/
def getCanvasHandle (cs : List CanvasModel) : Option Nat :=
  pickBestCanvas cs none 0 0

/-- Relative characterization of the scan: the index within `cs` of the
first canvas attaining the maximum area among those exceeding the
incoming threshold. -/
def bestIndexAux (bestArea : Nat) : List CanvasModel → Option Nat
  | [] => none
  | c :: rest =>
    if canvasArea c > bestArea then
      match bestIndexAux (canvasArea c) rest with
      | some j => some (j + 1)
      | none => some 0
    else
      match bestIndexAux bestArea rest with
      | some j => some (j + 1)
      | none => none

theorem pickBestCanvas_eq (cs : List CanvasModel) :
    ∀ (best : Option Nat) (bestArea idx : Nat),
      pickBestCanvas cs best bestArea idx
        = (match bestIndexAux bestArea cs with
            | some j => some (idx + j)
            | none => best) := by
  induction cs with
  | nil => intro best bestArea idx; rfl
  | cons c rest ih =>
    intro best bestArea idx
    rw [pickBestCanvas, bestIndexAux]
    by_cases hgt : canvasArea c > bestArea
    · rw [if_pos hgt, if_pos hgt, ih]
      cases hrest : bestIndexAux (canvasArea c) rest with
      | none => simp
      | some j => simp; omega
    · rw [if_neg hgt, if_neg hgt, ih]
      cases hrest : bestIndexAux bestArea rest with
      | none => simp
      | some j => simp; omega

theorem bestIndexAux_none_iff (cs : List CanvasModel) :
    ∀ a : Nat, bestIndexAux a cs = none ↔ ∀ c ∈ cs, canvasArea c ≤ a := by
  induction cs with
  | nil => intro a; simp [bestIndexAux]
  | cons c rest ih =>
    intro a
    rw [bestIndexAux]
    by_cases hgt : canvasArea c > a
    · rw [if_pos hgt]
      constructor
      · intro h
        cases hrest : bestIndexAux (canvasArea c) rest with
        | none => rw [hrest] at h; simp at h
        | some j => rw [hrest] at h; simp at h
      · intro h
        exact absurd (h c (by simp)) (by omega)
    · rw [if_neg hgt]
      constructor
      · intro h
        cases hrest : bestIndexAux a rest with
        | none =>
          intro x hx
          rcases List.mem_cons.mp hx with hx | hx
          · rw [hx]; omega
          · exact ((ih a).mp hrest) x hx
        | some j => rw [hrest] at h; simp at h
      · intro h
        cases hrest : bestIndexAux a rest with
        | none => rfl
        | some j =>
          have : bestIndexAux a rest = none :=
            (ih a).mpr (fun x hx => h x (by simp [hx]))
          rw [this] at hrest
          exact absurd hrest (by simp)

theorem bestIndexAux_some_props (cs : List CanvasModel) :
    ∀ (a j : Nat), bestIndexAux a cs = some j →
      ∃ h : j < cs.length,
        a < canvasArea cs[j]
        ∧ (∀ m (hm : m < cs.length), canvasArea cs[m] ≤ canvasArea cs[j])
        ∧ (∀ m (hm : m < cs.length), m < j →
            canvasArea cs[m] < canvasArea cs[j]) := by
  induction cs with
  | nil => intro a j h; rw [bestIndexAux] at h; exact absurd h (by simp)
  | cons c rest ih =>
    intro a j h
    rw [bestIndexAux] at h
    by_cases hgt : canvasArea c > a
    · rw [if_pos hgt] at h
      cases hrest : bestIndexAux (canvasArea c) rest with
      | none =>
        rw [hrest] at h
        simp only [Option.some.injEq] at h
        subst h
        have hall := (bestIndexAux_none_iff rest (canvasArea c)).mp hrest
        refine ⟨by simp, ?_, ?_, ?_⟩
        · simpa using hgt
        · intro m hm
          cases m with
          | zero => simp
          | succ k =>
            simp only [List.getElem_cons_succ, List.getElem_cons_zero]
            exact hall _ (List.getElem_mem _)
        · intro m hm hmj
          omega
      | some j' =>
        rw [hrest] at h
        simp only [Option.some.injEq] at h
        subst h
        obtain ⟨hj', hlt, hmax, hfirst⟩ := ih (canvasArea c) j' hrest
        have hj1 : j' + 1 < (c :: rest).length := by
          simp only [List.length_cons]
          omega
        refine ⟨hj1, ?_, ?_, ?_⟩
        · simp only [List.getElem_cons_succ]
          omega
        · intro m hm
          cases m with
          | zero =>
            simp only [List.getElem_cons_succ, List.getElem_cons_zero]
            omega
          | succ k =>
            simp only [List.getElem_cons_succ]
            exact hmax k (by simpa using hm)
        · intro m hm hmj
          cases m with
          | zero =>
            simp only [List.getElem_cons_succ, List.getElem_cons_zero]
            omega
          | succ k =>
            simp only [List.getElem_cons_succ]
            exact hfirst k (by simpa using hm) (by omega)
    · rw [if_neg hgt] at h
      cases hrest : bestIndexAux a rest with
      | none => rw [hrest] at h; exact absurd h (by simp)
      | some j' =>
        rw [hrest] at h
        simp only [Option.some.injEq] at h
        subst h
        obtain ⟨hj', hlt, hmax, hfirst⟩ := ih a j' hrest
        have hj1 : j' + 1 < (c :: rest).length := by
          simp only [List.length_cons]
          omega
        have hcle : canvasArea c ≤ canvasArea rest[j'] := by
          omega
        refine ⟨hj1, ?_, ?_, ?_⟩
        · simp only [List.getElem_cons_succ]
          exact hlt
        · intro m hm
          cases m with
          | zero =>
            simp only [List.getElem_cons_succ, List.getElem_cons_zero]
            exact hcle
          | succ k =>
            simp only [List.getElem_cons_succ]
            exact hmax k (by simpa using hm)
        · intro m hm hmj
          cases m with
          | zero =>
            simp only [List.getElem_cons_succ, List.getElem_cons_zero]
            omega
          | succ k =>
            simp only [List.getElem_cons_succ]
            exact hfirst k (by simpa using hm) (by omega)

theorem getCanvasHandle_eq (cs : List CanvasModel) :
    getCanvasHandle cs = bestIndexAux 0 cs := by
  rw [getCanvasHandle, pickBestCanvas_eq]
  cases h : bestIndexAux 0 cs with
  | none => rfl
  | some j => simp

/-- A canvas with only intrinsic dimensions, for the document-order
example. -/
def mkDims (w h : Nat) : CanvasModel :=
  ⟨w, h, 0, 0, true, none, true, false, []⟩

/-- C7: the canvas locator returns the index of the canvas with strictly
greatest area (width times height, falling back per axis to the client
dimension when the intrinsic one is zero); it returns none exactly when
no canvas exists or every canvas has zero area; among equal maximal
areas the first in document order wins; and for areas 0, 100, 50, 100 in
document order the element at index 1 is returned. -/
theorem canvas_locator (cs : List CanvasModel) :
    (getCanvasHandle cs = none ↔ ∀ c ∈ cs, canvasArea c = 0)
    ∧ (∀ i, getCanvasHandle cs = some i →
        ∃ h : i < cs.length,
          0 < canvasArea cs[i]
          ∧ (∀ m (hm : m < cs.length), canvasArea cs[m] ≤ canvasArea cs[i])
          ∧ (∀ m (hm : m < cs.length), m < i →
              canvasArea cs[m] < canvasArea cs[i]))
    ∧ getCanvasHandle [mkDims 0 0, mkDims 10 10, mkDims 10 5, mkDims 20 5]
        = some 1 := by
  refine ⟨?_, ?_, by decide⟩
  · rw [getCanvasHandle_eq, bestIndexAux_none_iff]
    constructor
    · intro h c hc; have := h c hc; omega
    · intro h c hc; have := h c hc; omega
  · intro i hi
    rw [getCanvasHandle_eq] at hi
    exact bestIndexAux_some_props cs 0 i hi

/-- Demo canvas list with areas 0, 100, 50, 100. -/
def demoCanvases : List CanvasModel :=
  [mkDims 0 0, mkDims 10 10, mkDims 10 5, mkDims 20 5]

/-- Witness for C7: on the demo list the locator picks index 1, whose
area 100 is maximal, positive, and strictly above every earlier area. -/
theorem canvas_locator_witness :
    ∃ h : 1 < demoCanvases.length,
      0 < canvasArea demoCanvases[1]
      ∧ (∀ m (hm : m < demoCanvases.length),
          canvasArea demoCanvases[m] ≤ canvasArea demoCanvases[1])
      ∧ (∀ m (hm : m < demoCanvases.length), m < 1 →
          canvasArea demoCanvases[m] < canvasArea demoCanvases[1]) :=
  (canvas_locator demoCanvases).2.1 1 (by decide)

/- ===================================================================
   Iteration controller (main, lines 383-512)
   =================================================================== -/

/-- A file written under the screenshot directory. -/
inductive Artifact where
  | shot (i : Nat)
  | state (i : Nat)
  | errors (i : Nat)
  | errorsBoot
deriving DecidableEq

/-- Fold the records arriving in one window into the tracker, in arrival
order (the listeners call `ingest` once per event). -/
def ingestAll (t : ConsoleErrorTracker) (es : List ErrRecord) : ConsoleErrorTracker :=
  es.foldl ConsoleErrorTracker.ingest t

/-- Artifacts written by iteration `i` before its error check:
`shot-<i>.png` always, `state-<i>.json` exactly when the captured text
state is truthy. -/
def iterCaptureArts (stateAvail : Nat → Bool) (i : Nat) : List Artifact :=
  Artifact.shot i :: (if stateAvail i then [Artifact.state i] else [])

/-- Result of the iteration loop: artifacts written, the `hadErrors`
flag, and the final tracker. -/
structure IterOutcome where
  artifacts : List Artifact
  hadErrors : Bool
  tracker : ConsoleErrorTracker
deriving DecidableEq

/-- The `for (let i = 0; i < args.iterations; i++)` loop of `main`:
capture artifacts, ingest the records that arrived during the
iteration, drain, and on a non-empty batch write the error artifact,
set `hadErrors` and break. `iterRecs i` is the list of error records
the listeners deliver during iteration `i`, `stateAvail i` the
truthiness of the text state captured there. -/
def iterLoop (iterRecs : Nat → List ErrRecord) (stateAvail : Nat → Bool) :
    ConsoleErrorTracker → Nat → Nat → IterOutcome
  | t, 0, _ => ⟨[], false, t⟩
  | t, n + 1, i =>
    let arts := iterCaptureArts stateAvail i
    let t1 := ingestAll t (iterRecs i)
    let fresh := (t1.drain).1
    let t2 := (t1.drain).2
    if fresh.isEmpty then
      let rest := iterLoop iterRecs stateAvail t2 n (i + 1)
      ⟨arts ++ rest.artifacts, rest.hadErrors, rest.tracker⟩
    else
      ⟨arts ++ [Artifact.errors i], true, t2⟩

/-- Tracker state after the boot-error check: the boot-phase records
are ingested and drained once. -/
def postBootTracker (bootRecs : List ErrRecord) : ConsoleErrorTracker :=
  (((ingestAll ConsoleErrorTracker.init bootRecs)).drain).2

/-- `errors-boot.json` is written exactly when the boot drain is
non-empty. -/
def bootArtifacts (bootRecs : List ErrRecord) : List Artifact :=
  if (((ingestAll ConsoleErrorTracker.init bootRecs)).drain).1.isEmpty then []
  else [Artifact.errorsBoot]

/-- Result of a whole run: the artifact files written and the process
exit code. -/
structure RunResult where
  artifacts : List Artifact
  exitCode : Nat
deriving DecidableEq

/-- The artifact- and exit-relevant behaviour of `main` on a run that
launches the browser: boot-error check, iteration loop, then
`process.exit(hadErrors ? 1 : 0)`. -/
def mainModel (iterations : Nat) (bootRecs : List ErrRecord)
    (iterRecs : Nat → List ErrRecord) (stateAvail : Nat → Bool) : RunResult :=
  let out := iterLoop iterRecs stateAvail (postBootTracker bootRecs) iterations 0
  ⟨bootArtifacts bootRecs ++ out.artifacts,
   if out.hadErrors then 1 else 0⟩

/-- The batch iteration `start + j` would drain, along the unbroken
evolution of the tracker from state `t` at iteration `start`. -/
def freshSeq (iterRecs : Nat → List ErrRecord) :
    ConsoleErrorTracker → Nat → Nat → List ErrRecord
  | t, start, 0 => ((ingestAll t (iterRecs start)).drain).1
  | t, start, j + 1 =>
      freshSeq iterRecs ((ingestAll t (iterRecs start)).drain).2 (start + 1) j

theorem isEmpty_false_of_ne_nil {α : Type} {l : List α} (h : l ≠ []) :
    l.isEmpty = false := by
  cases l with
  | nil => exact absurd rfl h
  | cons a l => rfl

theorem isEmpty_true_of_eq_nil {α : Type} {l : List α} (h : l = []) :
    l.isEmpty = true := by
  rw [h]; rfl

theorem iterLoop_break (iterRecs : Nat → List ErrRecord) (stateAvail : Nat → Bool)
    (t : ConsoleErrorTracker) (n i : Nat)
    (h : (((ingestAll t (iterRecs i)).drain).1).isEmpty = false) :
    iterLoop iterRecs stateAvail t (n + 1) i
      = ⟨iterCaptureArts stateAvail i ++ [Artifact.errors i], true,
         ((ingestAll t (iterRecs i)).drain).2⟩ := by
  simp only [iterLoop, h, Bool.false_eq_true, if_false]

theorem iterLoop_continue (iterRecs : Nat → List ErrRecord) (stateAvail : Nat → Bool)
    (t : ConsoleErrorTracker) (n i : Nat)
    (h : (((ingestAll t (iterRecs i)).drain).1).isEmpty = true) :
    iterLoop iterRecs stateAvail t (n + 1) i
      = ⟨iterCaptureArts stateAvail i
           ++ (iterLoop iterRecs stateAvail
                ((ingestAll t (iterRecs i)).drain).2 n (i + 1)).artifacts,
         (iterLoop iterRecs stateAvail
            ((ingestAll t (iterRecs i)).drain).2 n (i + 1)).hadErrors,
         (iterLoop iterRecs stateAvail
            ((ingestAll t (iterRecs i)).drain).2 n (i + 1)).tracker⟩ := by
  simp only [iterLoop, h, if_true]

theorem errors_not_in_capture (stateAvail : Nat → Bool) (i m : Nat) :
    Artifact.errors m ∉ iterCaptureArts stateAvail i := by
  rw [iterCaptureArts]
  by_cases h : stateAvail i <;> simp [h]

theorem shot_in_capture (stateAvail : Nat → Bool) (i m : Nat) :
    Artifact.shot m ∈ iterCaptureArts stateAvail i → m = i := by
  rw [iterCaptureArts]
  by_cases h : stateAvail i <;> simp [h]

theorem state_in_capture (stateAvail : Nat → Bool) (i m : Nat) :
    Artifact.state m ∈ iterCaptureArts stateAvail i → m = i := by
  rw [iterCaptureArts]
  by_cases h : stateAvail i <;> simp [h]

theorem iterLoop_firstBad (iterRecs : Nat → List ErrRecord) (stateAvail : Nat → Bool) :
    ∀ (k : Nat) (t : ConsoleErrorTracker) (n i : Nat), k < n →
      freshSeq iterRecs t i k ≠ [] →
      (∀ j, j < k → freshSeq iterRecs t i j = []) →
      (iterLoop iterRecs stateAvail t n i).hadErrors = true
      ∧ Artifact.errors (i + k) ∈ (iterLoop iterRecs stateAvail t n i).artifacts
      ∧ (∀ m, Artifact.errors m ∈ (iterLoop iterRecs stateAvail t n i).artifacts
          → m = i + k)
      ∧ (∀ m, Artifact.shot m ∈ (iterLoop iterRecs stateAvail t n i).artifacts
          → m ≤ i + k)
      ∧ (∀ m, Artifact.state m ∈ (iterLoop iterRecs stateAvail t n i).artifacts
          → m ≤ i + k) := by
  intro k
  induction k with
  | zero =>
    intro t n i hkn hbad _
    cases n with
    | zero => omega
    | succ n =>
      have hne : (((ingestAll t (iterRecs i)).drain).1).isEmpty = false :=
        isEmpty_false_of_ne_nil (by simpa [freshSeq] using hbad)
      rw [iterLoop_break iterRecs stateAvail t n i hne]
      refine ⟨rfl, ?_, ?_, ?_, ?_⟩
      · simp
      · intro m hm
        simp only [List.mem_append, List.mem_cons] at hm
        rcases hm with hm | hm
        · exact absurd hm (errors_not_in_capture stateAvail i m)
        · simp at hm
          omega
      · intro m hm
        simp only [List.mem_append] at hm
        rcases hm with hm | hm
        · have := shot_in_capture stateAvail i m hm
          omega
        · simp at hm
      · intro m hm
        simp only [List.mem_append] at hm
        rcases hm with hm | hm
        · have := state_in_capture stateAvail i m hm
          omega
        · simp at hm
  | succ k ih =>
    intro t n i hkn hbad hgood
    cases n with
    | zero => omega
    | succ n =>
      have h0 : freshSeq iterRecs t i 0 = [] := hgood 0 (by omega)
      have hemp : (((ingestAll t (iterRecs i)).drain).1).isEmpty = true :=
        isEmpty_true_of_eq_nil (by simpa [freshSeq] using h0)
      rw [iterLoop_continue iterRecs stateAvail t n i hemp]
      have hbad' : freshSeq iterRecs ((ingestAll t (iterRecs i)).drain).2 (i + 1) k ≠ [] := by
        simpa [freshSeq] using hbad
      have hgood' : ∀ j, j < k →
          freshSeq iterRecs ((ingestAll t (iterRecs i)).drain).2 (i + 1) j = [] := by
        intro j hj
        have := hgood (j + 1) (by omega)
        simpa [freshSeq] using this
      obtain ⟨h1, h2, h3, h4, h5⟩ :=
        ih ((ingestAll t (iterRecs i)).drain).2 n (i + 1) (by omega) hbad' hgood'
      have hik : i + 1 + k = i + (k + 1) := by omega
      refine ⟨h1, ?_, ?_, ?_, ?_⟩
      · simp only [List.mem_append]
        right
        rw [← hik]
        exact h2
      · intro m hm
        simp only [List.mem_append] at hm
        rcases hm with hm | hm
        · exact absurd hm (errors_not_in_capture stateAvail i m)
        · have := h3 m hm
          omega
      · intro m hm
        simp only [List.mem_append] at hm
        rcases hm with hm | hm
        · have := shot_in_capture stateAvail i m hm
          omega
        · have := h4 m hm
          omega
      · intro m hm
        simp only [List.mem_append] at hm
        rcases hm with hm | hm
        · have := state_in_capture stateAvail i m hm
          omega
        · have := h5 m hm
          omega

theorem errorsBoot_only (bootRecs : List ErrRecord) :
    ∀ a ∈ bootArtifacts bootRecs, a = Artifact.errorsBoot := by
  intro a ha
  rw [bootArtifacts] at ha
  split at ha
  · simp at ha
  · simpa using ha

/-- C2: if iteration `i` is the first whose post-capture drain is
non-empty, then the run writes exactly the error artifact of iteration
`i` (no other iteration error artifact exists), marks the run failed,
executes no iteration after `i` (no shot, state, or errors artifact with
a later index exists), and exits with code 1. -/
theorem failFast_halt (iterations : Nat) (bootRecs : List ErrRecord)
    (iterRecs : Nat → List ErrRecord) (stateAvail : Nat → Bool) (i : Nat)
    (hi : i < iterations)
    (hbad : freshSeq iterRecs (postBootTracker bootRecs) 0 i ≠ [])
    (hfirst : ∀ j, j < i → freshSeq iterRecs (postBootTracker bootRecs) 0 j = []) :
    Artifact.errors i ∈ (mainModel iterations bootRecs iterRecs stateAvail).artifacts
    ∧ (∀ m, Artifact.errors m
        ∈ (mainModel iterations bootRecs iterRecs stateAvail).artifacts → m = i)
    ∧ (∀ j, i < j →
        Artifact.shot j ∉ (mainModel iterations bootRecs iterRecs stateAvail).artifacts
        ∧ Artifact.state j ∉ (mainModel iterations bootRecs iterRecs stateAvail).artifacts
        ∧ Artifact.errors j ∉ (mainModel iterations bootRecs iterRecs stateAvail).artifacts)
    ∧ (mainModel iterations bootRecs iterRecs stateAvail).exitCode = 1 := by
  obtain ⟨h1, h2, h3, h4, h5⟩ :=
    iterLoop_firstBad iterRecs stateAvail i (postBootTracker bootRecs) iterations 0
      hi hbad hfirst
  rw [Nat.zero_add] at h2 h3 h4 h5
  have hmaindef : mainModel iterations bootRecs iterRecs stateAvail
      = ⟨bootArtifacts bootRecs
           ++ (iterLoop iterRecs stateAvail (postBootTracker bootRecs) iterations 0).artifacts,
         if (iterLoop iterRecs stateAvail (postBootTracker bootRecs) iterations 0).hadErrors
           then 1 else 0⟩ := rfl
  rw [hmaindef]
  refine ⟨?_, ?_, ?_, ?_⟩
  · simp only [List.mem_append]
    right
    exact h2
  · intro m hm
    simp only [List.mem_append] at hm
    rcases hm with hm | hm
    · exact absurd (errorsBoot_only bootRecs _ hm) (by simp)
    · exact h3 m hm
  · intro j hj
    refine ⟨?_, ?_, ?_⟩
    · intro hm
      simp only [List.mem_append] at hm
      rcases hm with hm | hm
      · exact absurd (errorsBoot_only bootRecs _ hm) (by simp)
      · have := h4 j hm
        omega
    · intro hm
      simp only [List.mem_append] at hm
      rcases hm with hm | hm
      · exact absurd (errorsBoot_only bootRecs _ hm) (by simp)
      · have := h5 j hm
        omega
    · intro hm
      simp only [List.mem_append] at hm
      rcases hm with hm | hm
      · exact absurd (errorsBoot_only bootRecs _ hm) (by simp)
      · have := h3 j hm
        omega
  · rw [h1]
    rfl

/-- Error records delivered during iteration 1 only, for the C2
witness. -/
def demoIterRecs (j : Nat) : List ErrRecord :=
  if j = 1 then [⟨"console.error", "Uncaught TypeError: boom"⟩] else []

/-- Witness for C2 at a concrete run: three configured iterations, a
fresh error in iteration 1, no boot errors: the errors-1 artifact is
written and the exit code is 1. -/
theorem failFast_halt_witness :
    Artifact.errors 1
        ∈ (mainModel 3 [] demoIterRecs (fun _ => true)).artifacts
      ∧ (mainModel 3 [] demoIterRecs (fun _ => true)).exitCode = 1 :=
  ⟨(failFast_halt 3 [] demoIterRecs (fun _ => true) 1 (by omega) (by decide)
      (fun j hj => by
        have hj0 : j = 0 := by omega
        subst hj0
        decide)).1,
   (failFast_halt 3 [] demoIterRecs (fun _ => true) 1 (by omega) (by decide)
      (fun j hj => by
        have hj0 : j = 0 := by omega
        subst hj0
        decide)).2.2.2⟩

theorem eq_nil_of_isEmpty_true {α : Type} {l : List α} (h : l.isEmpty = true) :
    l = [] := by
  cases l with
  | nil => rfl
  | cons a l => simp at h

theorem iterLoop_hadErrors_iff (iterRecs : Nat → List ErrRecord)
    (stateAvail : Nat → Bool) :
    ∀ (n : Nat) (t : ConsoleErrorTracker) (i : Nat),
      ((iterLoop iterRecs stateAvail t n i).hadErrors = true
        ↔ ∃ k, k < n ∧ freshSeq iterRecs t i k ≠ []) := by
  intro n
  induction n with
  | zero => intro t i; simp [iterLoop]
  | succ n ih =>
    intro t i
    cases hb : (((ingestAll t (iterRecs i)).drain).1).isEmpty with
    | true =>
      rw [iterLoop_continue _ _ _ _ _ hb]
      have hnil := eq_nil_of_isEmpty_true hb
      constructor
      · intro h
        obtain ⟨k, hk, hkb⟩ := (ih _ (i + 1)).mp h
        exact ⟨k + 1, by omega, by simpa [freshSeq] using hkb⟩
      · rintro ⟨k, hk, hkb⟩
        cases k with
        | zero =>
          rw [freshSeq] at hkb
          exact absurd hnil hkb
        | succ k =>
          apply (ih _ (i + 1)).mpr
          exact ⟨k, by omega, by simpa [freshSeq] using hkb⟩
    | false =>
      rw [iterLoop_break _ _ _ _ _ hb]
      constructor
      · intro _
        refine ⟨0, by omega, ?_⟩
        rw [freshSeq]
        intro hc
        rw [isEmpty_true_of_eq_nil hc] at hb
        exact absurd hb (by simp)
      · intro _
        rfl

/-- C1 counterexample: a run with one configured iteration in which an
error record arrives during the boot phase and nothing new arrives
later: the boot-error artifact is written, so an error was recorded
during the run, yet the process exits 0 — `hadErrors` is only ever set
inside the iteration loop. -/
theorem bootError_exit_zero_cex :
    Artifact.errorsBoot
        ∈ (mainModel 1 [⟨"pageerror", "ReferenceError: boom"⟩]
            (fun _ => []) (fun _ => false)).artifacts
      ∧ (mainModel 1 [⟨"pageerror", "ReferenceError: boom"⟩]
            (fun _ => []) (fun _ => false)).exitCode = 0 := by
  decide

/-- C1 amended: the process exits 1 exactly when some iteration's
post-capture drain is non-empty, and exits 0 exactly when every
iteration's drain is empty — boot-phase error records alone produce the
errors-boot artifact but leave the exit code at 0. -/
theorem exit_code_iff_iteration_errors (iterations : Nat)
    (bootRecs : List ErrRecord) (iterRecs : Nat → List ErrRecord)
    (stateAvail : Nat → Bool) :
    ((mainModel iterations bootRecs iterRecs stateAvail).exitCode = 1
      ↔ ∃ k, k < iterations
          ∧ freshSeq iterRecs (postBootTracker bootRecs) 0 k ≠ [])
    ∧ ((mainModel iterations bootRecs iterRecs stateAvail).exitCode = 0
      ↔ ∀ k, k < iterations →
          freshSeq iterRecs (postBootTracker bootRecs) 0 k = []) := by
  have hiff := iterLoop_hadErrors_iff iterRecs stateAvail iterations
    (postBootTracker bootRecs) 0
  have hexit : (mainModel iterations bootRecs iterRecs stateAvail).exitCode
      = if (iterLoop iterRecs stateAvail (postBootTracker bootRecs)
            iterations 0).hadErrors then 1 else 0 := rfl
  cases hh : (iterLoop iterRecs stateAvail (postBootTracker bootRecs)
      iterations 0).hadErrors with
  | true =>
    rw [hh] at hexit
    simp at hexit
    have hex := hiff.mp hh
    constructor
    · rw [hexit]
      exact ⟨fun _ => hex, fun _ => rfl⟩
    · rw [hexit]
      constructor
      · intro h
        exact absurd h (by omega)
      · intro hall
        obtain ⟨k, hk, hkb⟩ := hex
        exact absurd (hall k hk) hkb
  | false =>
    rw [hh] at hexit
    simp at hexit
    have hnoex : ¬∃ k, k < iterations
        ∧ freshSeq iterRecs (postBootTracker bootRecs) 0 k ≠ [] := by
      intro hc
      have := hiff.mpr hc
      rw [hh] at this
      exact absurd this (by simp)
    constructor
    · rw [hexit]
      constructor
      · intro h
        exact absurd h (by omega)
      · intro hex
        exact absurd hex hnoex
    · rw [hexit]
      refine ⟨fun _ => ?_, fun _ => rfl⟩
      intro k hk
      by_contra hc
      exact hnoex ⟨k, hk, hc⟩

/- ===================================================================
   Virtual time shim (makeVirtualTimeShim, lines 138-179)
   =================================================================== -/

/-- Which wrapped primitive scheduled a task. -/
inductive TaskKind where
  | timeout
  | interval
  | raf
deriving DecidableEq

/-- Browser-side status of one scheduled task: what kind it is, whether
its underlying callback already ran (for the one-shot kinds), and
whether it was cancelled through the native clear functions. -/
structure TaskInfo where
  kind : TaskKind
  fired : Bool
  cancelled : Bool
deriving DecidableEq

/-- State of the shim plus the browser timer table: the shim's pending
set (task objects modelled as numeric identities), the status of every
task ever scheduled, and the next fresh identity. -/
structure ShimState where
  pending : List Nat
  tasks : List (Nat × TaskInfo)
  nextId : Nat
deriving DecidableEq

/-- State right after the init script ran. -/
def initShim : ShimState := ⟨[], [], 0⟩

/-- Status of a task by identity. -/
def lookupTask (s : ShimState) (id : Nat) : Option TaskInfo :=
  (s.tasks.find? (fun p => p.1 == id)).map Prod.snd

/-- A call of the wrapped `setTimeout` / `setInterval` /
`requestAnimationFrame`: each of the three wrappers creates a fresh task
object and adds it to the pending set before delegating to the
original. -/
def scheduleTask (s : ShimState) (k : TaskKind) : ShimState :=
  ⟨s.pending ++ [s.nextId],
   s.tasks ++ [(s.nextId, ⟨k, false, false⟩)],
   s.nextId + 1⟩

/-- The wrapped callback of task `id` runs: the `setTimeout` and
`requestAnimationFrame` wrappers delete the task from the pending set
before invoking the user callback; the `setInterval` wrapper invokes the
user callback without touching the pending set. -/
def fireTask (s : ShimState) (id : Nat) : ShimState :=
  match lookupTask s id with
  | none => s
  | some t =>
    if t.kind = TaskKind.interval then s
    else
      ⟨s.pending.erase id,
       s.tasks.map (fun p =>
         if p.1 = id then (p.1, ⟨p.2.kind, true, p.2.cancelled⟩) else p),
       s.nextId⟩

/-- A `clearTimeout` / `clearInterval` / `cancelAnimationFrame` call:
the shim installs no wrapper for these, so only the browser timer table
changes — the pending set is untouched. -/
def cancelTask (s : ShimState) (id : Nat) : ShimState :=
  ⟨s.pending,
   s.tasks.map (fun p =>
     if p.1 = id then (p.1, ⟨p.2.kind, p.2.fired, true⟩) else p),
   s.nextId⟩

/-- `__drainVirtualTimePending()`: the size of the pending set. -/
def drainVirtualTimePending (s : ShimState) : Nat :=
  s.pending.length

/-- Browser semantics of callback delivery: a task's callback can run
only if the task exists, was not cancelled, and (for the one-shot kinds)
has not already fired. -/
def canFire (s : ShimState) (id : Nat) : Bool :=
  match lookupTask s id with
  | none => false
  | some t => !t.cancelled && (decide (t.kind = TaskKind.interval) || !t.fired)

/-- External events acting on the shim state. -/
inductive ShimOp where
  | schedule (k : TaskKind)
  | fire (id : Nat)
  | cancel (id : Nat)
deriving DecidableEq

/-- Transition function. -/
def stepShimOp (s : ShimState) : ShimOp → ShimState
  | ShimOp.schedule k => scheduleTask s k
  | ShimOp.fire id => fireTask s id
  | ShimOp.cancel id => cancelTask s id

/-- Event legality: scheduling and cancelling are always possible, a
callback fires only when the browser would deliver it. -/
def legalShimOp (s : ShimState) : ShimOp → Bool
  | ShimOp.schedule _ => true
  | ShimOp.fire id => canFire s id
  | ShimOp.cancel _ => true

/-- Legality of a whole event sequence. -/
def legalShimOps : ShimState → List ShimOp → Bool
  | _, [] => true
  | s, op :: ops => legalShimOp s op && legalShimOps (stepShimOp s op) ops

/-- Run an event sequence. -/
def execShimOps (s : ShimState) (ops : List ShimOp) : ShimState :=
  ops.foldl stepShimOp s

/-- Task `id` exists and was cancelled. -/
def isCancelledB (s : ShimState) (id : Nat) : Bool :=
  match lookupTask s id with
  | some t => t.cancelled
  | none => false

/-- Well-formedness: pending entries are distinct identities below the
fresh counter, and so are the scheduled task identities. -/
def ShimState.wf (s : ShimState) : Prop :=
  s.pending.Nodup
  ∧ (∀ id ∈ s.pending, id < s.nextId)
  ∧ (∀ p ∈ s.tasks, p.1 < s.nextId)

theorem find?_append_of_some {α : Type} {p : α → Bool} {l1 : List α} (l2 : List α)
    {x : α} (h : l1.find? p = some x) : (l1 ++ l2).find? p = some x := by
  induction l1 with
  | nil => simp at h
  | cons a l ih =>
    rw [List.cons_append]
    by_cases hpa : p a = true
    · rw [List.find?_cons_of_pos _ hpa] at h
      rw [List.find?_cons_of_pos _ hpa]
      exact h
    · rw [List.find?_cons_of_neg _ hpa] at h
      rw [List.find?_cons_of_neg _ hpa]
      exact ih h

theorem find?_key_map {β : Type} (l : List (Nat × β)) (f : Nat × β → Nat × β)
    (hf : ∀ p, (f p).1 = p.1) (id : Nat) :
    ((l.map f).find? (fun p => p.1 == id))
      = (l.find? (fun p => p.1 == id)).map f := by
  induction l with
  | nil => rfl
  | cons a l ih =>
    rw [List.map_cons]
    by_cases hpa : (a.1 == id) = true
    · have h1 : ((f a).1 == id) = true := by rw [hf a]; exact hpa
      rw [show (f a :: List.map f l).find? (fun p => p.1 == id) = some (f a) from
          List.find?_cons_of_pos _ h1,
        show (a :: l).find? (fun p => p.1 == id) = some a from
          List.find?_cons_of_pos _ hpa]
      simp
    · have h1 : ¬((f a).1 == id) = true := by rw [hf a]; exact hpa
      rw [show (f a :: List.map f l).find? (fun p => p.1 == id)
            = (List.map f l).find? (fun p => p.1 == id) from
          List.find?_cons_of_neg _ h1,
        show (a :: l).find? (fun p => p.1 == id) = l.find? (fun p => p.1 == id) from
          List.find?_cons_of_neg _ hpa]
      exact ih


theorem lookup_taskUpdate (tasks : List (Nat × TaskInfo)) (g : TaskInfo → TaskInfo)
    (id1 id : Nat) :
    ((tasks.map (fun p => if p.1 = id1 then (p.1, g p.2) else p)).find?
        (fun p => p.1 == id)).map Prod.snd
      = if id = id1 then
          (((tasks.find? (fun p => p.1 == id)).map Prod.snd).map g)
        else (tasks.find? (fun p => p.1 == id)).map Prod.snd := by
  rw [find?_key_map _ _ (fun p => by split <;> rfl)]
  cases hr : tasks.find? (fun p => p.1 == id) with
  | none => simp
  | some q =>
    have hq1 : q.1 = id := by
      have := List.find?_some hr
      simpa using this
    by_cases hid : id = id1
    · subst hid
      simp [hq1]
    · have hfq : (if q.1 = id1 then (q.1, g q.2) else q) = q :=
        if_neg (by rw [hq1]; exact hid)
      rw [if_neg hid]
      simp [hfq]

theorem lookupTask_scheduleTask_of_some (s : ShimState) (k : TaskKind) (id : Nat)
    (t : TaskInfo) (hl : lookupTask s id = some t) :
    lookupTask (scheduleTask s k) id = some t := by
  rw [lookupTask] at hl
  obtain ⟨q, hq, hqt⟩ := Option.map_eq_some'.mp hl
  show ((s.tasks ++ [((s.nextId, ⟨k, false, false⟩) : Nat × TaskInfo)]).find?
      (fun p => p.1 == id)).map Prod.snd = some t
  rw [find?_append_of_some _ hq]
  simp [hqt]

theorem fireTask_lookup_none {s : ShimState} {id : Nat}
    (hl : lookupTask s id = none) : fireTask s id = s := by
  rw [fireTask, hl]

theorem fireTask_lookup_some {s : ShimState} {id : Nat} {t : TaskInfo}
    (hl : lookupTask s id = some t) :
    fireTask s id
      = if t.kind = TaskKind.interval then s
        else
          ⟨s.pending.erase id,
           s.tasks.map (fun p =>
             if p.1 = id then (p.1, ⟨p.2.kind, true, p.2.cancelled⟩) else p),
           s.nextId⟩ := by
  rw [fireTask, hl]

theorem lookupTask_fireTask (s : ShimState) (id1 id : Nat) (t1 : TaskInfo)
    (hl : lookupTask s id1 = some t1) (hk : ¬t1.kind = TaskKind.interval) :
    lookupTask (fireTask s id1) id
      = if id = id1 then some ⟨t1.kind, true, t1.cancelled⟩
        else lookupTask s id := by
  rw [fireTask_lookup_some hl, if_neg hk]
  show ((s.tasks.map (fun p =>
      if p.1 = id1 then (p.1, ⟨p.2.kind, true, p.2.cancelled⟩) else p)).find?
        (fun p => p.1 == id)).map Prod.snd = _
  refine (lookup_taskUpdate s.tasks (fun t => ⟨t.kind, true, t.cancelled⟩)
    id1 id).trans ?_
  by_cases hid : id = id1
  · rw [if_pos hid, if_pos hid, hid]
    show (lookupTask s id1).map _ = _
    rw [hl]
    rfl
  · rw [if_neg hid, if_neg hid]
    rfl

theorem lookupTask_cancelTask (s : ShimState) (id1 id : Nat) :
    lookupTask (cancelTask s id1) id
      = if id = id1 then
          (lookupTask s id).map (fun t => ⟨t.kind, t.fired, true⟩)
        else lookupTask s id :=
  lookup_taskUpdate s.tasks (fun t => ⟨t.kind, t.fired, true⟩) id1 id

theorem wf_scheduleTask {s : ShimState} (h : s.wf) (k : TaskKind) :
    (scheduleTask s k).wf := by
  obtain ⟨h1, h2, h3⟩ := h
  refine ⟨?_, ?_, ?_⟩
  · show (s.pending ++ [s.nextId]).Nodup
    rw [List.nodup_append]
    refine ⟨h1, List.nodup_singleton _, ?_⟩
    intro x hx hx2
    simp only [List.mem_singleton] at hx2
    subst hx2
    exact absurd (h2 _ hx) (by omega)
  · intro id hid
    show id < s.nextId + 1
    simp only [scheduleTask, List.mem_append, List.mem_singleton] at hid
    rcases hid with hid | hid
    · have := h2 _ hid; omega
    · omega
  · intro p hp
    show p.1 < s.nextId + 1
    simp only [scheduleTask, List.mem_append, List.mem_singleton] at hp
    rcases hp with hp | hp
    · have := h3 _ hp; omega
    · rw [hp]; omega

theorem wf_taskUpdate_tasks {s : ShimState} (h3 : ∀ p ∈ s.tasks, p.1 < s.nextId)
    (g : TaskInfo → TaskInfo) (id1 : Nat) :
    ∀ p ∈ s.tasks.map (fun p => if p.1 = id1 then (p.1, g p.2) else p),
      p.1 < s.nextId := by
  intro p hp
  rw [List.mem_map] at hp
  obtain ⟨q, hq, hfq⟩ := hp
  have : p.1 = q.1 := by
    rw [← hfq]
    split <;> rfl
  rw [this]
  exact h3 q hq

theorem wf_fireTask {s : ShimState} (h : s.wf) (id : Nat) :
    (fireTask s id).wf := by
  obtain ⟨h1, h2, h3⟩ := h
  cases hl : lookupTask s id with
  | none =>
    rw [fireTask_lookup_none hl]
    exact ⟨h1, h2, h3⟩
  | some t =>
    rw [fireTask_lookup_some hl]
    by_cases hk : t.kind = TaskKind.interval
    · rw [if_pos hk]
      exact ⟨h1, h2, h3⟩
    · rw [if_neg hk]
      refine ⟨h1.erase _, ?_,
        wf_taskUpdate_tasks h3 (fun t => ⟨t.kind, true, t.cancelled⟩) id⟩
      intro x hx
      exact h2 x (List.mem_of_mem_erase hx)

theorem wf_cancelTask {s : ShimState} (h : s.wf) (id : Nat) :
    (cancelTask s id).wf := by
  obtain ⟨h1, h2, h3⟩ := h
  exact ⟨h1, h2, wf_taskUpdate_tasks h3 (fun t => ⟨t.kind, t.fired, true⟩) id⟩

theorem wf_stepShimOp {s : ShimState} (h : s.wf) (op : ShimOp) :
    (stepShimOp s op).wf := by
  cases op with
  | schedule k => exact wf_scheduleTask h k
  | fire id => exact wf_fireTask h id
  | cancel id => exact wf_cancelTask h id

theorem isCancelledB_iff (s : ShimState) (id : Nat) :
    isCancelledB s id = true
      ↔ ∃ t, lookupTask s id = some t ∧ t.cancelled = true := by
  rw [isCancelledB]
  cases hl : lookupTask s id with
  | none => simp
  | some t => simp

theorem canFire_elim {s : ShimState} {id : Nat} (h : canFire s id = true) :
    ∃ t, lookupTask s id = some t ∧ t.cancelled = false := by
  rw [canFire] at h
  cases hl : lookupTask s id with
  | none => rw [hl] at h; simp at h
  | some t =>
    rw [hl] at h
    simp only [Bool.and_eq_true] at h
    refine ⟨t, rfl, ?_⟩
    have := h.1
    simp at this
    exact this

theorem cancelledPending_step (s : ShimState) (op : ShimOp) (id : Nat)
    (hwf : s.wf) (hleg : legalShimOp s op = true)
    (hp : id ∈ s.pending) (hc : isCancelledB s id = true) :
    id ∈ (stepShimOp s op).pending
      ∧ isCancelledB (stepShimOp s op) id = true := by
  obtain ⟨t, hlt, htc⟩ := (isCancelledB_iff s id).mp hc
  cases op with
  | schedule k =>
    constructor
    · show id ∈ s.pending ++ [s.nextId]
      exact List.mem_append.mpr (Or.inl hp)
    · exact (isCancelledB_iff _ id).mpr
        ⟨t, lookupTask_scheduleTask_of_some s k id t hlt, htc⟩
  | fire idf =>
    have hcf : canFire s idf = true := hleg
    obtain ⟨tf, hltf, htf⟩ := canFire_elim hcf
    have hne : id ≠ idf := by
      intro he
      subst he
      rw [hlt] at hltf
      simp only [Option.some.injEq] at hltf
      rw [← hltf] at htf
      rw [htc] at htf
      exact absurd htf (by simp)
    show id ∈ (fireTask s idf).pending ∧ isCancelledB (fireTask s idf) id = true
    cases hlf : lookupTask s idf with
    | none =>
      rw [fireTask_lookup_none hlf]
      exact ⟨hp, hc⟩
    | some t1 =>
      by_cases hk : t1.kind = TaskKind.interval
      · rw [fireTask_lookup_some hlf, if_pos hk]
        exact ⟨hp, hc⟩
      · constructor
        · rw [fireTask_lookup_some hlf, if_neg hk]
          show id ∈ s.pending.erase idf
          exact (List.mem_erase_of_ne hne).mpr hp
        · rw [(isCancelledB_iff _ id)]
          refine ⟨t, ?_, htc⟩
          rw [lookupTask_fireTask s idf id t1 hlf hk, if_neg hne]
          exact hlt
  | cancel idc =>
    show id ∈ (cancelTask s idc).pending
      ∧ isCancelledB (cancelTask s idc) id = true
    constructor
    · exact hp
    · rw [(isCancelledB_iff _ id)]
      rw [lookupTask_cancelTask s idc id]
      by_cases hid : id = idc
      · rw [if_pos hid, hlt]
        exact ⟨⟨t.kind, t.fired, true⟩, rfl, rfl⟩
      · rw [if_neg hid]
        exact ⟨t, hlt, htc⟩

theorem cancelledPending_exec (ops : List ShimOp) :
    ∀ (s : ShimState) (id : Nat), s.wf → legalShimOps s ops = true →
      id ∈ s.pending → isCancelledB s id = true →
      id ∈ (execShimOps s ops).pending := by
  induction ops with
  | nil =>
    intro s id _ _ hp _
    exact hp
  | cons op ops ih =>
    intro s id hwf hleg hp hc
    rw [legalShimOps] at hleg
    simp only [Bool.and_eq_true] at hleg
    obtain ⟨hop, hops⟩ := hleg
    obtain ⟨hp', hc'⟩ := cancelledPending_step s op id hwf hop hp hc
    exact ih (stepShimOp s op) id (wf_stepShimOp hwf op) hops hp' hc'

/-- C9: every callback scheduled through the wrapped `setTimeout` or
`requestAnimationFrame` adds exactly one fresh entry to the pending set
at schedule time, and firing it removes exactly that entry; a
`setInterval` registration adds one entry that firing never removes; and
`__drainVirtualTimePending` returns the current size of the pending
set. -/
theorem shim_pending_accounting :
    (∀ (s : ShimState) (k : TaskKind), ShimState.wf s →
        drainVirtualTimePending (scheduleTask s k)
            = drainVirtualTimePending s + 1
          ∧ s.nextId ∈ (scheduleTask s k).pending
          ∧ s.nextId ∉ s.pending)
    ∧ (∀ (s : ShimState) (id : Nat) (t : TaskInfo), ShimState.wf s →
        lookupTask s id = some t → ¬t.kind = TaskKind.interval →
        id ∈ s.pending →
        (fireTask s id).pending = s.pending.erase id
          ∧ id ∉ (fireTask s id).pending
          ∧ drainVirtualTimePending (fireTask s id) + 1
              = drainVirtualTimePending s)
    ∧ (∀ (s : ShimState) (id : Nat) (t : TaskInfo),
        lookupTask s id = some t → t.kind = TaskKind.interval →
        (fireTask s id).pending = s.pending)
    ∧ (∀ s : ShimState, drainVirtualTimePending s = s.pending.length) := by
  refine ⟨?_, ?_, ?_, ?_⟩
  · intro s k hwf
    refine ⟨?_, ?_, ?_⟩
    · show (s.pending ++ [s.nextId]).length = s.pending.length + 1
      simp
    · show s.nextId ∈ s.pending ++ [s.nextId]
      simp
    · intro hmem
      exact absurd (hwf.2.1 _ hmem) (by omega)
  · intro s id t hwf hl hk hp
    have hpend : (fireTask s id).pending = s.pending.erase id := by
      rw [fireTask_lookup_some hl, if_neg hk]
    refine ⟨hpend, ?_, ?_⟩
    · rw [hpend]
      intro hmem
      have := (hwf.1.mem_erase_iff).mp hmem
      exact absurd rfl this.1
    · show (fireTask s id).pending.length + 1 = s.pending.length
      rw [hpend, List.length_erase_of_mem hp]
      have := List.length_pos_of_mem hp
      omega
  · intro s id t hl hk
    rw [fireTask_lookup_some hl, if_pos hk]
  · intro s
    rfl

/-- Witness for C9: scheduling a timeout on the fresh shim grows the
pending count from 0 to 1 and firing it removes the entry. -/
theorem shim_pending_accounting_witness :
    (drainVirtualTimePending (scheduleTask initShim TaskKind.timeout)
        = drainVirtualTimePending initShim + 1
      ∧ 0 ∈ (scheduleTask initShim TaskKind.timeout).pending
      ∧ 0 ∉ initShim.pending)
    ∧ (fireTask (scheduleTask initShim TaskKind.timeout) 0).pending
        = (scheduleTask initShim TaskKind.timeout).pending.erase 0 :=
  ⟨shim_pending_accounting.1 initShim TaskKind.timeout
      (by exact ⟨by decide, by decide, by decide⟩),
   (shim_pending_accounting.2.1 (scheduleTask initShim TaskKind.timeout) 0
      ⟨TaskKind.timeout, false, false⟩ (by exact ⟨by decide, by decide, by decide⟩)
      (by decide) (by decide) (by decide)).1⟩

/-- C10: the shim intercepts none of `clearTimeout`, `clearInterval`,
`cancelAnimationFrame`: cancelling changes nothing in the pending set; a
cancelled task can never fire, so its pending entry is never removed by
any legal continuation, and the count reported by
`__drainVirtualTimePending` stays at least the number of cancelled
still-pending tasks — a permanent over-count of one per cancelled
timer. -/
theorem shim_cancel_leaks_pending :
    (∀ (s : ShimState) (id : Nat), (cancelTask s id).pending = s.pending)
    ∧ (∀ (s : ShimState) (id : Nat) (t : TaskInfo),
        lookupTask s id = some t → canFire (cancelTask s id) id = false)
    ∧ (∀ (ops : List ShimOp) (s : ShimState) (id : Nat),
        ShimState.wf s → legalShimOps s ops = true →
        id ∈ s.pending → isCancelledB s id = true →
        id ∈ (execShimOps s ops).pending)
    ∧ (∀ (ops : List ShimOp) (s : ShimState),
        ShimState.wf s → legalShimOps s ops = true →
        (s.pending.filter (fun id => isCancelledB s id)).length
          ≤ drainVirtualTimePending (execShimOps s ops)) := by
  refine ⟨?_, ?_, cancelledPending_exec, ?_⟩
  · intro s id
    rfl
  · intro s id t hl
    rw [canFire, lookupTask_cancelTask s id id, if_pos rfl, hl]
    rfl
  · intro ops s hwf hleg
    have hsub : (s.pending.filter (fun id => isCancelledB s id))
        ⊆ (execShimOps s ops).pending := by
      intro id hid
      rw [List.mem_filter] at hid
      exact cancelledPending_exec ops s id hwf hleg hid.1 hid.2
    have hnd : (s.pending.filter (fun id => isCancelledB s id)).Nodup :=
      hwf.1.filter _
    exact (hnd.subperm hsub).length_le

/-- A shim run for the C10 witness: schedule a timeout, cancel it, then
schedule an animation frame and let it fire. -/
def cancelledShim : ShimState :=
  cancelTask (scheduleTask initShim TaskKind.timeout) 0

/-- Witness for C10: after cancelling the timeout, task 0 survives in
the pending set through a legal schedule-and-fire continuation, and the
reported pending count stays at least 1. -/
theorem shim_cancel_leaks_pending_witness :
    0 ∈ (execShimOps cancelledShim
          [ShimOp.schedule TaskKind.raf, ShimOp.fire 1]).pending
    ∧ (cancelledShim.pending.filter
          (fun id => isCancelledB cancelledShim id)).length
        ≤ drainVirtualTimePending (execShimOps cancelledShim
            [ShimOp.schedule TaskKind.raf, ShimOp.fire 1]) :=
  ⟨shim_cancel_leaks_pending.2.2.1
      [ShimOp.schedule TaskKind.raf, ShimOp.fire 1] cancelledShim 0
      (by exact ⟨by decide, by decide, by decide⟩) (by decide) (by decide)
      (by decide),
   shim_cancel_leaks_pending.2.2.2
      [ShimOp.schedule TaskKind.raf, ShimOp.fire 1] cancelledShim
      (by exact ⟨by decide, by decide, by decide⟩) (by decide)⟩
